import Mathlib

/-!
Verification of the chunked pagination and position-tracking subsystem of the
MarkdownReader repository.

The definitions below are shallow embeddings of the TypeScript source:
* `splitMarkdownIntoChunks`, `MarkdownChunk`  — src/utils/markdownPagination.ts
* `PaginationState` and its operations        — src/hooks/useChunkPagination.ts
* `extractTableOfContents`, `getHeadingPositions` — src/utils/tocService.ts
* `saveReadingPosition`, `getReadingPosition` — the position store service
* `computeInitialChunkIndex`                  — src/components/MarkdownReader.tsx, loadDocument

JavaScript strings are modelled by Lean `String` (a wrapper around `List Char`),
JS numbers holding integer values by `Int` (or `Nat` where the source value is
provably non-negative).  `Array.prototype.join('\n')` / `String.prototype.split('\n')`
are modelled by the explicit `joinLines` / `splitLines` below.
-/

/-! ## Chunker: src/utils/markdownPagination.ts -/

/-- Model of `markdown.split('\n')`: accumulate characters of the current line
(in reverse) and emit a line at each `'\n'`; the final accumulator is emitted
as the last line, so the result is always non-empty (matching JS, where
`''.split('\n')` is `['']`). -/
def splitLinesAux : List Char → List Char → List String
  | [], acc => [String.mk acc.reverse]
  | c :: cs, acc =>
      if c = '\n' then String.mk acc.reverse :: splitLinesAux cs []
      else splitLinesAux cs (c :: acc)

/-- JS `markdown.split('\n')`. -/
def splitLines (s : String) : List String := splitLinesAux s.data []

/-- JS `lines.join('\n')` (also `String.intercalate "\n"` semantics). -/
def joinLines : List String → String
  | [] => ""
  | [l] => l
  | l :: ls => l ++ "\n" ++ joinLines ls

/-- One chunk produced by the chunker, exactly the `MarkdownChunk` interface of
src/utils/markdownPagination.ts. -/
structure MarkdownChunk where
  content : String
  startLine : Nat
  endLine : Nat
deriving Repr, DecidableEq

/-- JS regex test `/^#{1,2}\s+/.test(line)`: one or two leading `'#'` followed by a
whitespace character (with regex backtracking, `"###..."` fails because after one
or two `'#'` the next character is `'#'`, not whitespace). -/
def lineIsHeading (line : String) : Bool :=
  match line.data with
  | '#' :: '#' :: c :: _ => c.isWhitespace
  | '#' :: c :: _ => c.isWhitespace
  | _ => false

/-- The loop body of `splitMarkdownIntoChunks` (lines 33–79 of
src/utils/markdownPagination.ts), scanning the lines with state
`(chunks, currentChunk, currentSize, chunkStartLine)` at line index `i`;
`total` is `lines.length`, used by the final flush.  The float comparisons
`currentSize > targetSize * 0.8` and `currentSize > targetSize * 1.5` are
modelled exactly (for the source's `targetSize = 50000` the thresholds
40000 and 75000 are exact in IEEE doubles) as `5*size > 4*t` and `2*size > 3*t`. -/
def chunkStep (t : Nat) (total : Nat) :
    List String → Nat → List MarkdownChunk → List String → Nat → Nat → List MarkdownChunk
  | [], _, chunks, currentChunk, _, chunkStartLine =>
      if currentChunk.isEmpty then chunks
      else chunks ++ [⟨joinLines currentChunk, chunkStartLine, total⟩]
  | line :: rest, i, chunks, currentChunk, currentSize, chunkStartLine =>
      let lineSize := line.length + 1
      if lineIsHeading line ∧ 5 * currentSize > 4 * t ∧ ¬ currentChunk.isEmpty then
        chunkStep t total rest (i + 1)
          (chunks ++ [⟨joinLines currentChunk, chunkStartLine, i⟩]) [line] lineSize i
      else
        if 2 * (currentSize + lineSize) > 3 * t then
          chunkStep t total rest (i + 1)
            (chunks ++ [⟨joinLines (currentChunk ++ [line]), chunkStartLine, i + 1⟩]) [] 0 (i + 1)
        else
          chunkStep t total rest (i + 1) chunks (currentChunk ++ [line])
            (currentSize + lineSize) chunkStartLine

/-- `splitMarkdownIntoChunks` with the module constant `TARGET_CHUNK_SIZE`
abstracted as `t` (the source fixes `t = 50000`); the spec's chunker contract
`chunk(content, targetSize)` quantifies over the target size, so the claims are
stated over this parameterized form. -/
def splitMarkdownIntoChunksT (t : Nat) (markdown : String) : List MarkdownChunk :=
  if markdown.length = 0 then [⟨"", 0, 0⟩]
  else if markdown.length ≤ t then [⟨markdown, 0, (splitLines markdown).length⟩]
  else
    let lines := splitLines markdown
    let chunks := chunkStep t lines.length lines 0 [] [] 0 0
    if chunks.length > 0 then chunks else [⟨markdown, 0, lines.length⟩]

/-- `TARGET_CHUNK_SIZE = 50000` from src/utils/markdownPagination.ts. -/
def TARGET_CHUNK_SIZE : Nat := 50000

/-- `splitMarkdownIntoChunks` exactly as in src/utils/markdownPagination.ts. -/
def splitMarkdownIntoChunks : String → List MarkdownChunk :=
  splitMarkdownIntoChunksT TARGET_CHUNK_SIZE

/-! ### Basic lemmas about lines -/

lemma splitLinesAux_ne_nil (cs : List Char) (acc : List Char) :
    splitLinesAux cs acc ≠ [] := by
  induction cs generalizing acc with
  | nil => simp [splitLinesAux]
  | cons c cs ih =>
      simp only [splitLinesAux]
      split <;> simp [ih]

lemma splitLines_ne_nil (s : String) : splitLines s ≠ [] :=
  splitLinesAux_ne_nil _ _

lemma joinLines_cons (l : String) (ls : List String) (h : ls ≠ []) :
    joinLines (l :: ls) = l ++ "\n" ++ joinLines ls := by
  cases ls with
  | nil => exact absurd rfl h
  | cons a as => rfl

lemma join_splitLinesAux (cs : List Char) (acc : List Char) :
    joinLines (splitLinesAux cs acc) = String.mk (acc.reverse ++ cs) := by
  induction cs generalizing acc with
  | nil => simp [splitLinesAux, joinLines]
  | cons c cs ih =>
      simp only [splitLinesAux]
      by_cases hc : c = '\n'
      · simp only [if_pos hc]
        rw [joinLines_cons _ _ (splitLinesAux_ne_nil _ _), ih []]
        apply String.ext
        simp [String.data_append, hc]
      · simp only [if_neg hc]
        rw [ih (c :: acc)]
        simp

lemma joinLines_splitLines (s : String) : joinLines (splitLines s) = s := by
  have h := join_splitLinesAux s.data []
  simpa [splitLines] using h

lemma String.append_assoc_local (a b c : String) : a ++ b ++ c = a ++ (b ++ c) := by
  apply String.ext
  simp [String.data_append]

lemma joinLines_append (l1 l2 : List String) (h1 : l1 ≠ []) (h2 : l2 ≠ []) :
    joinLines (l1 ++ l2) = joinLines l1 ++ "\n" ++ joinLines l2 := by
  induction l1 with
  | nil => exact absurd rfl h1
  | cons a l1 ih =>
      cases l1 with
      | nil => simp [joinLines_cons a l2 h2, joinLines]
      | cons b l1' =>
          rw [List.cons_append, joinLines_cons a _ (by simp),
            joinLines_cons a _ (by simp), ih (by simp)]
          apply String.ext
          simp [String.data_append]

lemma chunkStep_acc (t total : Nat) (lines : List String) (i : Nat)
    (chunks : List MarkdownChunk) (cur : List String) (size sl : Nat) :
    chunkStep t total lines i chunks cur size sl =
      chunks ++ chunkStep t total lines i [] cur size sl := by
  induction lines generalizing i chunks cur size sl with
  | nil =>
      simp only [chunkStep]
      split <;> simp
  | cons line rest ih =>
      simp only [chunkStep]
      split
      · rw [ih, ih ((i : Nat) + 1) ([] ++ [_])]
        simp
      · split
        · rw [ih, ih ((i : Nat) + 1) ([] ++ [_])]
          simp
        · rw [ih, ih ((i : Nat) + 1) []]

lemma chunkStep_ne_nil (t total : Nat) (lines : List String) (i : Nat)
    (cur : List String) (size sl : Nat) (h : cur ≠ [] ∨ lines ≠ []) :
    chunkStep t total lines i [] cur size sl ≠ [] := by
  induction lines generalizing i cur size sl with
  | nil =>
      rcases h with h | h
      · simp only [chunkStep]
        rw [if_neg (by simpa [List.isEmpty_iff] using h)]
        simp
      · exact absurd rfl h
  | cons line rest ih =>
      simp only [chunkStep]
      split
      · rw [chunkStep_acc]
        simp
      · split
        · rw [chunkStep_acc]
          simp
        · exact ih _ _ _ _ (Or.inl (by simp))

lemma chunkStep_join (t total : Nat) (lines : List String) (i : Nat)
    (cur : List String) (size sl : Nat) :
    joinLines ((chunkStep t total lines i [] cur size sl).map MarkdownChunk.content) =
      if cur = [] then joinLines lines else joinLines (cur ++ lines) := by
  induction lines generalizing i cur size sl with
  | nil =>
      simp only [chunkStep]
      by_cases hc : cur = []
      · rw [if_pos (by simpa [List.isEmpty_iff] using hc), if_pos hc]
        simp [joinLines]
      · rw [if_neg (by simpa [List.isEmpty_iff] using hc), if_neg hc]
        simp [joinLines]
  | cons line rest ih =>
      simp only [chunkStep]
      split
      · rename_i hguard
        have hcur : cur ≠ [] := by
          simpa [List.isEmpty_iff] using hguard.2.2
        rw [chunkStep_acc]
        have hne : chunkStep t total rest (i + 1) [] [line] (line.length + 1) i ≠ [] :=
          chunkStep_ne_nil t total rest _ _ _ _ (Or.inl (by simp))
        simp only [List.nil_append, List.map_append, List.map_cons, List.map_nil,
          List.singleton_append]
        rw [joinLines_cons _ _ (by simpa using hne)]
        rw [ih]
        rw [if_neg (by simp), if_neg hcur]
        simp only [List.singleton_append]
        rw [← joinLines_append cur (line :: rest) hcur (by simp)]
      · split
        · rw [chunkStep_acc]
          simp only [List.nil_append, List.map_append, List.map_cons, List.map_nil,
            List.singleton_append]
          by_cases hrest : rest = []
          · subst hrest
            simp only [chunkStep, List.isEmpty_nil, if_true, List.map_nil, List.append_nil]
            by_cases hc : cur = []
            · subst hc
              simp [joinLines]
            · rw [if_neg hc]
              simp [joinLines]
          · have hne : chunkStep t total rest (i + 1) [] [] 0 (i + 1) ≠ [] :=
              chunkStep_ne_nil t total _ _ _ _ _ (Or.inr hrest)
            rw [joinLines_cons _ _ (by simpa using hne)]
            rw [ih]
            rw [if_pos rfl]
            by_cases hc : cur = []
            · subst hc
              rw [if_pos rfl]
              simp only [List.nil_append]
              rw [← joinLines_append [line] rest (by simp) hrest]
              simp [joinLines]
            · rw [if_neg hc]
              rw [← joinLines_append (cur ++ [line]) rest (by simp) hrest]
              simp
        · rw [ih]
          rw [if_neg (by simp)]
          by_cases hc : cur = []
          · subst hc
            rw [if_pos rfl]
            simp
          · rw [if_neg hc]
            simp

/-! ### C1: concatenation of chunk contents -/

lemma markdown_eq_empty_of_length_zero (markdown : String) (h0 : markdown.length = 0) :
    markdown = "" := by
  apply String.ext
  have hd : markdown.data.length = 0 := h0
  simpa using List.length_eq_zero.mp hd

/--
C1 (amended): for every `targetSize` and every content, joining the contents of
the chunks returned by `splitMarkdownIntoChunks` in index order **with a single
newline re-inserted between consecutive chunks** reproduces the original content
exactly.  (Plain concatenation loses exactly the one `'\n'` separating the last
line of each chunk from the first line of the next, because each chunk stores
`currentChunk.join('\n')` and the boundary newline belongs to neither chunk;
see `chunks_concat_ne_original` for the counterexample to the unamended claim.)
-/
theorem chunks_join_newline_eq (t : Nat) (markdown : String) :
    joinLines ((splitMarkdownIntoChunksT t markdown).map MarkdownChunk.content) = markdown := by
  unfold splitMarkdownIntoChunksT
  by_cases h0 : markdown.length = 0
  · rw [if_pos h0]
    rw [markdown_eq_empty_of_length_zero markdown h0]
    simp [joinLines]
  · rw [if_neg h0]
    by_cases hle : markdown.length ≤ t
    · rw [if_pos hle]
      simp [joinLines]
    · rw [if_neg hle]
      have hne : chunkStep t (splitLines markdown).length (splitLines markdown) 0 [] [] 0 0 ≠ [] :=
        chunkStep_ne_nil _ _ _ _ _ _ _ (Or.inr (splitLines_ne_nil markdown))
      simp only
      rw [if_pos (by simpa [List.length_pos] using hne)]
      rw [chunkStep_join]
      rw [if_pos rfl]
      exact joinLines_splitLines markdown

/--
C1 (counterexample): the claim as stated — plain concatenation of the chunk
contents reproduces the content — fails: for `targetSize = 1` and the non-empty
content `"a\nb"`, the chunker returns chunks `["a", "b"]` whose concatenation is
`"ab"`, losing the newline at the chunk boundary.
-/
theorem chunks_concat_ne_original :
    String.join ((splitMarkdownIntoChunksT 1 "a\nb").map MarkdownChunk.content) ≠ "a\nb" := by
  decide

/-! ### C10: line-number contiguity of the chunks -/

/-- Contiguity of a chunk list: `ChainFrom a b r` says the first chunk of `r`
starts at line `a`, each chunk starts where the previous one ended, and the
last chunk ends at line `b` (degenerating to `a = b` for the empty list). -/
def ChainFrom (a b : Nat) : List MarkdownChunk → Prop
  | [] => a = b
  | c :: rest => c.startLine = a ∧ ChainFrom c.endLine b rest

lemma ChainFrom.head_startLine {a b : Nat} {l : List MarkdownChunk}
    (h : ChainFrom a b l) {c : MarkdownChunk} (hc : l.head? = some c) :
    c.startLine = a := by
  cases l with
  | nil => simp at hc
  | cons x rest =>
      simp only [List.head?_cons, Option.some.injEq] at hc
      subst hc
      exact h.1

lemma ChainFrom.adjacent {a b : Nat} {l : List MarkdownChunk}
    (h : ChainFrom a b l) : ∀ (i : Nat) (c d : MarkdownChunk),
    l[i]? = some c → l[i + 1]? = some d → c.endLine = d.startLine := by
  induction l generalizing a with
  | nil => intro i c d hc; simp at hc
  | cons x rest ih =>
      intro i c d hc hd
      cases i with
      | zero =>
          simp only [List.getElem?_cons_zero, Option.some.injEq] at hc
          subst hc
          simp only [List.getElem?_cons_succ] at hd
          have := ih h.2
          cases rest with
          | nil => simp at hd
          | cons y rest2 =>
              simp only [List.getElem?_cons_zero, Option.some.injEq] at hd
              subst hd
              exact (h.2.1).symm
      | succ j =>
          simp only [List.getElem?_cons_succ] at hc hd
          exact ih h.2 j c d hc hd

lemma ChainFrom.last_endLine {a b : Nat} {l : List MarkdownChunk}
    (h : ChainFrom a b l) : ∀ c : MarkdownChunk, l.getLast? = some c → c.endLine = b := by
  induction l generalizing a with
  | nil => intro c hc; simp at hc
  | cons x rest ih =>
      intro c hc
      cases hr : rest with
      | nil =>
          subst hr
          simp only [List.getLast?_singleton, Option.some.injEq] at hc
          subst hc
          exact h.2
      | cons y rest2 =>
          subst hr
          rw [List.getLast?_cons_cons] at hc
          exact ih h.2 c hc

lemma chunkStep_chain (t total : Nat) (lines : List String) (i : Nat)
    (cur : List String) (size sl : Nat) (hsl : cur = [] → sl = i)
    (hi : total = i + lines.length) :
    ChainFrom sl total (chunkStep t total lines i [] cur size sl) := by
  induction lines generalizing i cur size sl with
  | nil =>
      simp only [chunkStep]
      by_cases hc : cur = []
      · rw [if_pos (by simpa [List.isEmpty_iff] using hc)]
        simp only [List.length_nil] at hi
        simpa [ChainFrom] using (hsl hc).trans hi.symm
      · rw [if_neg (by simpa [List.isEmpty_iff] using hc)]
        simp only [List.length_nil] at hi
        exact ⟨rfl, rfl⟩
  | cons line rest ih =>
      simp only [chunkStep]
      split
      · rw [chunkStep_acc]
        refine ⟨rfl, ?_⟩
        exact ih (i + 1) [line] (line.length + 1) i (by simp) (by simp at hi ⊢; omega)
      · split
        · rw [chunkStep_acc]
          refine ⟨rfl, ?_⟩
          exact ih (i + 1) [] 0 (i + 1) (fun _ => rfl) (by simp at hi ⊢; omega)
        · exact ih (i + 1) (cur ++ [line]) (size + (line.length + 1)) sl
            (by simp) (by simp at hi ⊢; omega)

lemma splitMarkdown_chain (markdown : String) :
    ∃ b : Nat, ChainFrom 0 b (splitMarkdownIntoChunks markdown) ∧
      (markdown ≠ "" → b = (splitLines markdown).length) := by
  unfold splitMarkdownIntoChunks splitMarkdownIntoChunksT
  by_cases h0 : markdown.length = 0
  · refine ⟨0, ?_, ?_⟩
    · rw [if_pos h0]
      exact ⟨rfl, rfl⟩
    · intro hne
      exact absurd (markdown_eq_empty_of_length_zero markdown h0) hne
  · refine ⟨(splitLines markdown).length, ?_, fun _ => rfl⟩
    rw [if_neg h0]
    by_cases hle : markdown.length ≤ TARGET_CHUNK_SIZE
    · rw [if_pos hle]
      exact ⟨rfl, rfl⟩
    · rw [if_neg hle]
      have hne : chunkStep TARGET_CHUNK_SIZE (splitLines markdown).length
          (splitLines markdown) 0 [] [] 0 0 ≠ [] :=
        chunkStep_ne_nil _ _ _ _ _ _ _ (Or.inr (splitLines_ne_nil markdown))
      simp only
      rw [if_pos (by simpa [List.length_pos] using hne)]
      exact chunkStep_chain _ _ _ 0 [] 0 0 (fun _ => rfl) (by omega)

lemma splitMarkdownIntoChunks_ne_nil (markdown : String) :
    splitMarkdownIntoChunks markdown ≠ [] := by
  unfold splitMarkdownIntoChunks splitMarkdownIntoChunksT
  by_cases h0 : markdown.length = 0
  · rw [if_pos h0]; simp
  · rw [if_neg h0]
    by_cases hle : markdown.length ≤ TARGET_CHUNK_SIZE
    · rw [if_pos hle]; simp
    · rw [if_neg hle]
      simp only
      split
      · exact List.ne_nil_of_length_pos (by assumption)
      · simp

/--
C10 (confirmed): for every markdown string the chunk list returned by
`splitMarkdownIntoChunks` is non-empty, its first chunk starts at line 0,
adjacent chunks are contiguous in line numbers (`endLine` of one equals
`startLine` of the next), and for non-empty input the last chunk ends at the
total line count `markdown.split('\n').length`.
-/
theorem chunks_line_contiguous (markdown : String) :
    splitMarkdownIntoChunks markdown ≠ [] ∧
    (∀ c : MarkdownChunk, (splitMarkdownIntoChunks markdown).head? = some c →
      c.startLine = 0) ∧
    (∀ (i : Nat) (c d : MarkdownChunk), (splitMarkdownIntoChunks markdown)[i]? = some c →
      (splitMarkdownIntoChunks markdown)[i + 1]? = some d → c.endLine = d.startLine) ∧
    (∀ c : MarkdownChunk, (splitMarkdownIntoChunks markdown).getLast? = some c →
      markdown ≠ "" → c.endLine = (splitLines markdown).length) := by
  obtain ⟨b, hchain, hb⟩ := splitMarkdown_chain markdown
  refine ⟨splitMarkdownIntoChunks_ne_nil markdown, ?_, ?_, ?_⟩
  · intro c hc
    exact hchain.head_startLine hc
  · intro i c d hc hd
    exact hchain.adjacent i c d hc hd
  · intro c hc hne
    rw [← hb hne]
    exact hchain.last_endLine c hc

/--
Witness for C10: evaluated on the concrete document `"x"` — the single chunk is
`⟨"x", 0, 1⟩`, whose last `endLine` equals the line count of `"x"`.
-/
theorem chunks_line_contiguous_witness :
    (splitMarkdownIntoChunks "x").getLast? = some ⟨"x", 0, 1⟩ ∧
    (MarkdownChunk.mk "x" 0 1).endLine = (splitLines "x").length :=
  ⟨by decide, (chunks_line_contiguous "x").2.2.2 ⟨"x", 0, 1⟩ (by decide) (by decide)⟩

/-! ## Window Manager: src/hooks/useChunkPagination.ts -/

/-- `CHUNK_SIZE = 25000` from src/constants/index.ts. -/
def CHUNK_SIZE : Nat := 25000

/-- `CHUNK_LOAD_DEBOUNCE_MS = 2000` from src/constants/index.ts. -/
def CHUNK_LOAD_DEBOUNCE_MS : Int := 2000

/-- The mutable refs of `useChunkPagination`:
`firstLoadedChunkRef`, `lastLoadedChunkRef`, `totalChunksRef` (JS numbers,
modelled as `Int` since the source can produce `-1` via `totalChunks - 1`),
`isLoadingMoreRef` and `lastScrollEventTime`. -/
structure PaginationState where
  firstLoadedChunk : Int
  lastLoadedChunk : Int
  totalChunks : Int
  isLoadingMore : Bool
  lastScrollEventTime : Int
deriving Repr, DecidableEq

/-- Initial ref values: `useRef(0)`, `useRef(0)`, `useRef(0)`, `useRef(false)`, `useRef(0)`. -/
def initialPaginationState : PaginationState := ⟨0, 0, 0, false, 0⟩

/-- JS `Math.ceil(fullContent.length / CHUNK_SIZE)` (exact for lengths far below 2^53). -/
def getTotalChunks (fullContent : String) : Int :=
  ((fullContent.length + CHUNK_SIZE - 1) / CHUNK_SIZE : Nat)

/-- JS `String.prototype.substring(a, b)`: both arguments are clamped to
`[0, length]` and swapped when the first exceeds the second. -/
def jsSubstring (s : String) (a b : Int) : String :=
  let len : Int := s.length
  let a2 := max 0 (min a len)
  let b2 := max 0 (min b len)
  String.mk ((s.data.take (max a2 b2).toNat).drop (min a2 b2).toNat)

/-- `getChunkContent` of useChunkPagination.ts:
`start = chunkIndex * CHUNK_SIZE`, `end = min(start + CHUNK_SIZE, length)`,
`fullContent.substring(start, end)`. -/
def getChunkContent (fullContent : String) (chunkIndex : Int) : String :=
  let start := chunkIndex * (CHUNK_SIZE : Int)
  let stop := min (start + (CHUNK_SIZE : Int)) (fullContent.length : Int)
  jsSubstring fullContent start stop

/-- Index list traversed by a JS `for (let i = lo; i <= hi; i++)` loop. -/
def intRangeIncl (lo hi : Int) : List Int :=
  (List.range (hi + 1 - lo).toNat).map (fun k => lo + k)

/-- `loadInitialChunks(startChunkIndex, numChunks)` (lines 63–85): computes the
total, clamps the window, stores it in the refs and returns the concatenated
chunk contents. -/
def loadInitialChunks (fullContent : String) (startChunkIndex numChunks : Int)
    (s : PaginationState) : PaginationState × String :=
  let totalChunks := getTotalChunks fullContent
  let firstChunk := max 0 (min startChunkIndex (totalChunks - 1))
  let lastChunk := min (firstChunk + numChunks - 1) (totalChunks - 1)
  let content :=
    String.join ((intRangeIncl firstChunk lastChunk).map (getChunkContent fullContent))
  ({ s with
      totalChunks := totalChunks
      firstLoadedChunk := firstChunk
      lastLoadedChunk := lastChunk }, content)

/-- `loadMoreContent()` (lines 94–132), with the call time `Date.now()` passed as
`now`.  Returns `none` for each of the three no-op early returns (already
loading, at the last chunk, debounced).  On success the source also schedules
`isLoadingMore := false` after a 500 ms `setTimeout`; that asynchronous reset is
modelled by quantifying over the flag's later value where it matters. -/
def loadMoreContent (now : Int) (fullContent : String) (s : PaginationState) :
    PaginationState × Option String :=
  if s.isLoadingMore then (s, none)
  else
    let nextChunk := s.lastLoadedChunk + 1
    if s.totalChunks ≤ nextChunk then (s, none)
    else if now - s.lastScrollEventTime < CHUNK_LOAD_DEBOUNCE_MS then (s, none)
    else
      ({ s with
          lastScrollEventTime := now
          isLoadingMore := true
          lastLoadedChunk := nextChunk }, some (getChunkContent fullContent nextChunk))

/-- `loadPreviousContent()` (lines 139–175), symmetric to `loadMoreContent`. -/
def loadPreviousContent (now : Int) (fullContent : String) (s : PaginationState) :
    PaginationState × Option String :=
  if s.isLoadingMore then (s, none)
  else
    let prevChunk := s.firstLoadedChunk - 1
    if prevChunk < 0 then (s, none)
    else if now - s.lastScrollEventTime < CHUNK_LOAD_DEBOUNCE_MS then (s, none)
    else
      ({ s with
          lastScrollEventTime := now
          isLoadingMore := true
          firstLoadedChunk := prevChunk }, some (getChunkContent fullContent prevChunk))

/-- `jumpToChunk(targetChunkIndex)` (lines 185–203): unconditionally resets the
window (`newFirst = max(0, target)`, `newLast = min(target + 2, total - 1)`),
with no debounce or loading check. -/
def jumpToChunk (fullContent : String) (targetChunkIndex : Int) (s : PaginationState) :
    PaginationState × String :=
  let newFirst := max 0 targetChunkIndex
  let newLast := min (targetChunkIndex + 2) (s.totalChunks - 1)
  let newContent :=
    String.join ((intRangeIncl newFirst newLast).map (getChunkContent fullContent))
  ({ s with firstLoadedChunk := newFirst, lastLoadedChunk := newLast }, newContent)

/-- `getChunkForPosition(position)` (lines 208–210): `Math.floor(position / CHUNK_SIZE)`,
i.e. floor division, with no clamping. -/
def getChunkForPosition (position : Int) : Int :=
  Int.fdiv position (CHUNK_SIZE : Int)

/-- The spec's `LoadedWindow`: `(firstSegment, lastSegment, totalSegments)`. -/
def windowOf (s : PaginationState) : Int × Int × Int :=
  (s.firstLoadedChunk, s.lastLoadedChunk, s.totalChunks)

/-- The loaded-window invariant `0 ≤ firstSegment ≤ lastSegment < totalSegments`. -/
def WindowInvariant (s : PaginationState) : Prop :=
  0 ≤ s.firstLoadedChunk ∧ s.firstLoadedChunk ≤ s.lastLoadedChunk ∧
    s.lastLoadedChunk < s.totalChunks

instance (s : PaginationState) : Decidable (WindowInvariant s) := by
  unfold WindowInvariant
  infer_instance

/-! ### C2: the loaded-window invariant -/

/--
C2 (counterexample): on the empty document the invariant is not established:
`getTotalChunks "" = 0`, so `loadInitialChunks(0, 3)` computes
`firstChunk = max(0, min(0, -1)) = 0` and `lastChunk = min(2, -1) = -1`,
giving the window `(0, -1, 0)` which violates `firstSegment ≤ lastSegment`.
-/
theorem window_invariant_counterexample :
    ¬ WindowInvariant (loadInitialChunks "" 0 3 initialPaginationState).1 := by
  decide

/--
C2 (amended): the loaded-window invariant `0 ≤ first ≤ last < total` is
established by `loadInitialChunks` for every **non-empty** content, every start
index and every `numChunks ≥ 1`; it is preserved by `loadMoreContent` and
`loadPreviousContent` unconditionally; and it is established by `jumpToChunk`
for every target in `[0, totalChunks)`.  (The unamended claim fails for the
empty document, for `numChunks ≤ 0`, and for out-of-range jump targets, since
`jumpToChunk` does not clamp the target from above.)
-/
theorem window_invariant_preserved :
    (∀ (fullContent : String) (startChunkIndex numChunks : Int) (s : PaginationState),
      fullContent ≠ "" → 1 ≤ numChunks →
      WindowInvariant (loadInitialChunks fullContent startChunkIndex numChunks s).1) ∧
    (∀ (now : Int) (fullContent : String) (s : PaginationState),
      WindowInvariant s → WindowInvariant (loadMoreContent now fullContent s).1) ∧
    (∀ (now : Int) (fullContent : String) (s : PaginationState),
      WindowInvariant s → WindowInvariant (loadPreviousContent now fullContent s).1) ∧
    (∀ (fullContent : String) (target : Int) (s : PaginationState),
      0 ≤ target → target < s.totalChunks →
      WindowInvariant (jumpToChunk fullContent target s).1) := by
  refine ⟨?_, ?_, ?_, ?_⟩
  · intro fullContent startChunkIndex numChunks s hne hn
    have hlen : fullContent.length ≠ 0 :=
      fun h0 => hne (markdown_eq_empty_of_length_zero _ h0)
    simp only [loadInitialChunks, getTotalChunks, WindowInvariant, CHUNK_SIZE]
    omega
  · intro now fullContent s hs
    simp only [loadMoreContent]
    split_ifs with h1 h2 h3 <;>
      simp_all [WindowInvariant] <;> omega
  · intro now fullContent s hs
    simp only [loadPreviousContent]
    split_ifs with h1 h2 h3 <;>
      simp_all [WindowInvariant] <;> omega
  · intro fullContent target s h0 hlt
    simp only [jumpToChunk, WindowInvariant]
    omega

/--
Witness for C2 (amended), at concrete states: an initial load of the one-chunk
document `"a"`, a forward load, a backward load, and a jump, each establishing
the invariant.
-/
theorem window_invariant_preserved_witness :
    WindowInvariant (loadInitialChunks "a" 0 3 initialPaginationState).1 ∧
    WindowInvariant (loadMoreContent 5000 "a" ⟨0, 0, 2, false, 0⟩).1 ∧
    WindowInvariant (loadPreviousContent 5000 "a" ⟨1, 1, 2, false, 0⟩).1 ∧
    WindowInvariant (jumpToChunk "a" 0 ⟨0, 0, 1, false, 0⟩).1 :=
  ⟨window_invariant_preserved.1 "a" 0 3 initialPaginationState (by decide) (by decide),
   window_invariant_preserved.2.1 5000 "a" ⟨0, 0, 2, false, 0⟩ (by decide),
   window_invariant_preserved.2.2.1 5000 "a" ⟨1, 1, 2, false, 0⟩ (by decide),
   window_invariant_preserved.2.2.2 "a" 0 ⟨0, 0, 1, false, 0⟩ (by decide) (by decide)⟩

/-! ### C3: the offset locator -/

/-- Start offset of fixed-size chunk `i` (`start = chunkIndex * CHUNK_SIZE` in
`getChunkContent`). -/
def chunkStartOffset (chunkIndex : Int) : Int := chunkIndex * (CHUNK_SIZE : Int)

/-- End offset (exclusive) of fixed-size chunk `i`
(`end = Math.min(start + CHUNK_SIZE, fullContent.length)` in `getChunkContent`). -/
def chunkEndOffset (fullContent : String) (chunkIndex : Int) : Int :=
  min (chunkStartOffset chunkIndex + (CHUNK_SIZE : Int)) (fullContent.length : Int)

lemma getChunkContent_substring (fullContent : String) (chunkIndex : Int) :
    getChunkContent fullContent chunkIndex =
      jsSubstring fullContent (chunkStartOffset chunkIndex)
        (chunkEndOffset fullContent chunkIndex) := rfl

/--
C3 (amended): for every offset with `0 ≤ offset < content.length`,
`getChunkForPosition(offset) = floor(offset / CHUNK_SIZE)` is an index `i`
whose chunk character range `[i*CHUNK_SIZE, min((i+1)*CHUNK_SIZE, length))`
contains `offset`, and the result lies within `[0, totalSegments-1]` — the code
performs no clamping, the result merely happens to be in range for in-range
offsets.  The edge case `offset = content.length` maps to the last segment
**only when** `content.length` is not an exact multiple of `CHUNK_SIZE`
(otherwise the result is `totalSegments`, one past the last index; see
`getChunkForPosition_edge_counterexample`).
-/
theorem getChunkForPosition_locates :
    (∀ (fullContent : String) (offset : Int),
      0 ≤ offset → offset < (fullContent.length : Int) →
      chunkStartOffset (getChunkForPosition offset) ≤ offset ∧
      offset < chunkEndOffset fullContent (getChunkForPosition offset) ∧
      0 ≤ getChunkForPosition offset ∧
      getChunkForPosition offset ≤ getTotalChunks fullContent - 1) ∧
    (∀ fullContent : String, 0 < fullContent.length →
      fullContent.length % CHUNK_SIZE ≠ 0 →
      getChunkForPosition (fullContent.length : Int) = getTotalChunks fullContent - 1) := by
  constructor
  · intro fullContent offset h0 hlt
    have hfd : Int.fdiv offset (CHUNK_SIZE : Int) = offset / (CHUNK_SIZE : Int) :=
      Int.fdiv_eq_ediv offset (by norm_num [CHUNK_SIZE])
    simp only [getChunkForPosition, chunkStartOffset, chunkEndOffset,
      getTotalChunks, CHUNK_SIZE] at *
    omega
  · intro fullContent hpos hmod
    have hfd : Int.fdiv (fullContent.length : Int) (CHUNK_SIZE : Int) =
        (fullContent.length : Int) / (CHUNK_SIZE : Int) :=
      Int.fdiv_eq_ediv _ (by norm_num [CHUNK_SIZE])
    simp only [getChunkForPosition, getTotalChunks, CHUNK_SIZE] at *
    omega

/--
Witness for C3 (amended): on the 3-character document `"abc"`, offset 1 lies in
chunk 0's range and the locator stays within `[0, totalSegments-1]`; and since
3 is not a multiple of `CHUNK_SIZE`, offset `3 = length` maps to the last
segment.
-/
theorem getChunkForPosition_locates_witness :
    (chunkStartOffset (getChunkForPosition 1) ≤ 1 ∧
      (1 : Int) < chunkEndOffset "abc" (getChunkForPosition 1) ∧
      0 ≤ getChunkForPosition 1 ∧
      getChunkForPosition 1 ≤ getTotalChunks "abc" - 1) ∧
    getChunkForPosition (("abc".length : Nat) : Int) = getTotalChunks "abc" - 1 :=
  ⟨getChunkForPosition_locates.1 "abc" 1 (by decide) (by decide),
   getChunkForPosition_locates.2 "abc" (by decide) (by decide)⟩

/--
C3 (counterexample): for a document whose length is an exact multiple of
`CHUNK_SIZE` (here 25000 characters), `getChunkForPosition(content.length)`
returns `totalSegments` (= 1), not the last segment index (= 0): the code
computes `floor(position / CHUNK_SIZE)` with no clamping.
-/
theorem getChunkForPosition_edge_counterexample :
    getChunkForPosition (((String.mk (List.replicate 25000 'a')).length : Nat) : Int) ≠
      getTotalChunks (String.mk (List.replicate 25000 'a')) - 1 := by
  have hlen : (String.mk (List.replicate 25000 'a')).length = 25000 := by
    rw [String.length_mk, List.length_replicate]
  unfold getChunkForPosition getTotalChunks
  rw [hlen]
  rw [Int.fdiv_eq_ediv _ (by norm_num [CHUNK_SIZE])]
  simp only [CHUNK_SIZE]
  omega

/-! ### C4: the debounce property of loadMoreContent -/

/--
C4 (confirmed): if a `loadMoreContent` call at time `t1` actually advanced the
window (returned `some`), then any second call issued at time `t2` with
`t2 - t1 < CHUNK_LOAD_DEBOUNCE_MS` is a no-op: it returns the sentinel `none`
and leaves the state — in particular the LoadedWindow — exactly as it was
before that call.  This holds whatever the value `b` of the `isLoadingMore`
flag at the time of the second call (the source resets it on a 500 ms timer):
if the flag is still set the call hits the early loading check, otherwise it
hits the debounce check, since the successful first call stored `t1` in
`lastScrollEventTime`.
-/
theorem loadMore_debounce (t1 t2 : Int) (fullContent : String)
    (s s1 : PaginationState) (c : String)
    (hcall : loadMoreContent t1 fullContent s = (s1, some c))
    (hdt : t2 - t1 < CHUNK_LOAD_DEBOUNCE_MS) (b : Bool) :
    loadMoreContent t2 fullContent { s1 with isLoadingMore := b } =
      ({ s1 with isLoadingMore := b }, none) := by
  unfold loadMoreContent at hcall
  simp only [] at hcall
  split_ifs at hcall with h1 h2 h3
  · exact absurd (congrArg Prod.snd hcall) (by simp)
  · exact absurd (congrArg Prod.snd hcall) (by simp)
  · exact absurd (congrArg Prod.snd hcall) (by simp)
  · have hs1 : s1 = { s with
        lastScrollEventTime := t1
        isLoadingMore := true
        lastLoadedChunk := s.lastLoadedChunk + 1 } :=
      (congrArg Prod.fst hcall).symm
    subst hs1
    cases b with
    | true => simp [loadMoreContent]
    | false =>
        simp only [loadMoreContent, Bool.false_eq_true, if_false]
        split_ifs <;> rfl

/--
Witness for C4: a first call at `t1 = 5000` on a two-chunk state advances the
window; a second call at `t2 = 6000` (1000 ms later, inside the 2000 ms
debounce interval, with the loading flag already reset) is a no-op.
-/
theorem loadMore_debounce_witness :
    loadMoreContent 6000 "" ⟨0, 1, 2, false, 5000⟩ = (⟨0, 1, 2, false, 5000⟩, none) :=
  loadMore_debounce 5000 6000 "" ⟨0, 0, 2, false, 0⟩ ⟨0, 1, 2, true, 5000⟩
    (getChunkContent "" 1) (by decide) (by decide) false

/-! ### C6: jumpToChunk after loadInitialChunks -/

/--
C6 (counterexample): the claim fails for a target beyond the last segment,
because `jumpToChunk` computes `newFirst = max(0, target)` without clamping to
`totalChunks - 1` while `loadInitialChunks` clamps.  On the one-chunk document
`"a"`, `loadInitialChunks(5)` yields the window `(0, 0, 1)` but a following
`jumpToChunk(5)` yields `(5, 0, 1)`.
-/
theorem jump_after_loadInitial_counterexample :
    windowOf (jumpToChunk "a" 5 (loadInitialChunks "a" 5 3 initialPaginationState).1).1 ≠
      windowOf (loadInitialChunks "a" 5 3 initialPaginationState).1 := by
  decide

/--
C6 (amended): for every **valid** segment index `0 ≤ target < totalSegments`,
`loadInitialChunks(target)` followed by `jumpToChunk(target)` produces the same
LoadedWindow as `loadInitialChunks(target)` alone; and for every non-negative
target, `jumpToChunk` unconditionally (no debounce or loading check) resets the
window to `[target, min(target + 2, totalSegments - 1)]`.  (For targets beyond
the valid range the two operations disagree, since `jumpToChunk` does not clamp
the target from above; see `jump_after_loadInitial_counterexample`.)
-/
theorem jump_after_loadInitial_idempotent :
    (∀ (fullContent : String) (target : Int) (s : PaginationState),
      0 ≤ target → target < getTotalChunks fullContent →
      windowOf (jumpToChunk fullContent target
        (loadInitialChunks fullContent target 3 s).1).1 =
      windowOf (loadInitialChunks fullContent target 3 s).1) ∧
    (∀ (fullContent : String) (target : Int) (s : PaginationState),
      0 ≤ target →
      windowOf (jumpToChunk fullContent target s).1 =
        (target, min (target + 2) (s.totalChunks - 1), s.totalChunks)) := by
  constructor
  · intro fullContent target s h0 hlt
    simp only [windowOf, jumpToChunk, loadInitialChunks, Prod.mk.injEq]
    refine ⟨?_, ?_, trivial⟩ <;> omega
  · intro fullContent target s h0
    simp only [windowOf, jumpToChunk, Prod.mk.injEq]
    refine ⟨?_, trivial⟩
    omega

/--
Witness for C6 (amended): on the one-chunk document `"a"` with the valid target
0, jump-after-initial-load equals initial-load alone, and a direct jump resets
the window to `[0, min(2, 0)]`.
-/
theorem jump_after_loadInitial_idempotent_witness :
    windowOf (jumpToChunk "a" 0 (loadInitialChunks "a" 0 3 initialPaginationState).1).1 =
      windowOf (loadInitialChunks "a" 0 3 initialPaginationState).1 ∧
    windowOf (jumpToChunk "a" 0 ⟨0, 0, 1, false, 0⟩).1 = (0, min 2 0, 1) :=
  ⟨jump_after_loadInitial_idempotent.1 "a" 0 initialPaginationState (by decide) (by decide),
   jump_after_loadInitial_idempotent.2 "a" 0 ⟨0, 0, 1, false, 0⟩ (by decide)⟩

/-! ## Position Store -/

/-- The `ReadingPosition` record as written by the position store's
`saveReadingPosition`: `{documentId, scrollOffset, chunkIndex, timestamp}`.
`chunkIndex` is optional (`chunkIndex?: number`); the service variant that
saves only `{documentId, scrollOffset, timestamp}` is modelled by
`chunkIndex = none` (a missing JS object field reads as `undefined`). -/
structure ReadingPosition where
  documentId : String
  scrollOffset : Int
  chunkIndex : Option Int
  timestamp : Int
deriving Repr, DecidableEq

namespace PositionStore

/-- JS object property update `positions[documentId] = record`: replaces the
value at an existing key in place, otherwise appends the new key (JS object
key-insertion order). -/
def objSet : List (String × ReadingPosition) → String → ReadingPosition →
    List (String × ReadingPosition)
  | [], k, v => [(k, v)]
  | (k2, v2) :: rest, k, v =>
      if k2 = k then (k, v) :: rest else (k2, v2) :: objSet rest k v

/-- JS property lookup `positions[documentId] || null` (the stored values are
objects, hence never falsy). -/
def objGet : List (String × ReadingPosition) → String → Option ReadingPosition
  | [], _ => none
  | (k2, v2) :: rest, k => if k2 = k then some v2 else objGet rest k

/-- `saveReadingPosition(documentId, scrollOffset, chunkIndex)`: reads the
whole positions map, replaces the **full** record for `documentId` with
`{documentId, scrollOffset, chunkIndex, timestamp: Date.now()}` and writes the
map back.  The map is modelled at the parsed level (the JSON round-trip through
the key-value store is the identity on well-formed data); `Date.now()` is the
explicit argument `now`. -/
def saveReadingPosition (positions : List (String × ReadingPosition))
    (documentId : String) (scrollOffset : Int) (chunkIndex : Option Int)
    (now : Int) : List (String × ReadingPosition) :=
  objSet positions documentId ⟨documentId, scrollOffset, chunkIndex, now⟩

/-- `getReadingPosition(documentId)`: returns the stored record, or `null` when
none was ever saved. -/
def getReadingPosition (positions : List (String × ReadingPosition))
    (documentId : String) : Option ReadingPosition :=
  objGet positions documentId

lemma objGet_objSet_self (positions : List (String × ReadingPosition))
    (k : String) (v : ReadingPosition) :
    objGet (objSet positions k v) k = some v := by
  induction positions with
  | nil => simp [objSet, objGet]
  | cons kv rest ih =>
      obtain ⟨k2, v2⟩ := kv
      by_cases hk : k2 = k
      · simp [objSet, objGet, hk]
      · simp [objSet, objGet, hk, ih]

lemma objGet_eq_none_of_not_mem (positions : List (String × ReadingPosition))
    (k : String) (h : ∀ v, (k, v) ∉ positions) :
    objGet positions k = none := by
  induction positions with
  | nil => rfl
  | cons kv rest ih =>
      obtain ⟨k2, v2⟩ := kv
      by_cases hk : k2 = k
      · subst hk
        exact absurd (List.mem_cons_self _ _) (h v2)
      · simp only [objGet, if_neg hk]
        exact ih (fun v hv => h v (List.mem_cons_of_mem _ hv))

end PositionStore

/-! ### C7: save/get round trip -/

/--
C7 (confirmed): `saveReadingPosition(documentId, scrollOffset, chunkIndex)`
followed by `getReadingPosition(documentId)` returns exactly the record
`{documentId, scrollOffset, chunkIndex, timestamp}` that was saved — the full
record for that `documentId` is replaced wholesale, never partially merged —
and `getReadingPosition(documentId)` returns `null` for a `documentId` that was
never saved.
-/
theorem save_get_roundtrip :
    (∀ (positions : List (String × ReadingPosition)) (documentId : String)
      (scrollOffset : Int) (chunkIndex : Option Int) (now : Int),
      PositionStore.getReadingPosition
        (PositionStore.saveReadingPosition positions documentId scrollOffset chunkIndex now)
        documentId = some ⟨documentId, scrollOffset, chunkIndex, now⟩) ∧
    (∀ (positions : List (String × ReadingPosition)) (documentId : String),
      (∀ v, (documentId, v) ∉ positions) →
      PositionStore.getReadingPosition positions documentId = none) := by
  constructor
  · intro positions documentId scrollOffset chunkIndex now
    exact PositionStore.objGet_objSet_self positions documentId _
  · intro positions documentId h
    exact PositionStore.objGet_eq_none_of_not_mem positions documentId h

/--
Witness for C7: saving into an empty store and reading back yields exactly the
saved record, and reading an empty store yields `null`.
-/
theorem save_get_roundtrip_witness :
    PositionStore.getReadingPosition
      (PositionStore.saveReadingPosition [] "doc" 100 (some 3) 42) "doc" =
      some ⟨"doc", 100, some 3, 42⟩ ∧
    PositionStore.getReadingPosition [] "doc" = none :=
  ⟨save_get_roundtrip.1 [] "doc" 100 (some 3) 42,
   save_get_roundtrip.2 [] "doc" (by simp)⟩

/-! ### C8: storage failures are swallowed by saveReadingPosition -/

/-- Behaviour of the underlying key-value store (AsyncStorage) during one save:
whether the read rejects, whether the write rejects, and the currently stored
positions map (parsed level; `none` models a missing key, i.e. `getItem`
returning `null`). -/
structure KVBehavior where
  readFails : Bool
  writeFails : Bool
  stored : Option (List (String × ReadingPosition))
deriving Repr, DecidableEq

namespace PositionService

/-- `getAllReadingPositions()`: `AsyncStorage.getItem` wrapped in its own
try/catch — a read failure is caught and yields `{}`; a missing key (`null`)
also yields `{}` via `stored ? JSON.parse(stored) : {}`. -/
def getAllReadingPositions (kv : KVBehavior) : List (String × ReadingPosition) :=
  if kv.readFails then [] else kv.stored.getD []

/-- The body of `saveReadingPosition` before its catch: read all positions,
replace this document's record, write the map back with
`AsyncStorage.setItem`, which throws when the write fails. -/
def saveAttempt (kv : KVBehavior) (documentId : String) (scrollOffset : Int)
    (now : Int) : Except String (List (String × ReadingPosition)) :=
  let positions := getAllReadingPositions kv
  let positions2 :=
    PositionStore.objSet positions documentId ⟨documentId, scrollOffset, none, now⟩
  if kv.writeFails then Except.error "setItem failed"
  else Except.ok positions2

/-- `saveReadingPosition(documentId, scrollOffset)` including its try/catch:
any failure of the body is caught (logged only), leaving the stored map
unchanged.  The result pairs the stored map after the call with the outcome
visible to the caller; `Except.error` would model an exception propagating out
of the function. -/
def saveReadingPosition (kv : KVBehavior) (documentId : String)
    (scrollOffset : Int) (now : Int) :
    Option (List (String × ReadingPosition)) × Except String Unit :=
  match saveAttempt kv documentId scrollOffset now with
  | Except.ok positions2 => (some positions2, Except.ok ())
  | Except.error _ => (kv.stored, Except.ok ())

end PositionService

/--
C8 (confirmed): `saveReadingPosition` never propagates a storage failure: for
every store behaviour (read failure, write failure, any stored map) and every
argument, the caller-visible outcome is normal completion (`Except.ok ()`),
never an exception.  Moreover a failed write leaves the stored map unchanged,
and when both operations succeed the map holds the replaced record.
-/
theorem save_never_throws (kv : KVBehavior) (documentId : String)
    (scrollOffset now : Int) :
    (PositionService.saveReadingPosition kv documentId scrollOffset now).2 =
      Except.ok () ∧
    (kv.writeFails = true →
      (PositionService.saveReadingPosition kv documentId scrollOffset now).1 =
        kv.stored) ∧
    (kv.readFails = false → kv.writeFails = false →
      (PositionService.saveReadingPosition kv documentId scrollOffset now).1 =
        some (PositionStore.objSet (kv.stored.getD []) documentId
          ⟨documentId, scrollOffset, none, now⟩)) := by
  obtain ⟨rf, wf, st⟩ := kv
  cases rf <;> cases wf <;>
    simp [PositionService.saveReadingPosition, PositionService.saveAttempt,
      PositionService.getAllReadingPositions]

/--
Witness for C8: a save against a store whose write fails completes normally
and leaves the (empty) store unchanged; with both operations succeeding the
record is stored.
-/
theorem save_never_throws_witness :
    (PositionService.saveReadingPosition ⟨false, true, none⟩ "doc" 10 7).1 = none ∧
    (PositionService.saveReadingPosition ⟨false, false, none⟩ "doc" 10 7).1 =
      some [("doc", ⟨"doc", 10, none, 7⟩)] ∧
    (PositionService.saveReadingPosition ⟨false, true, none⟩ "doc" 10 7).2 =
      Except.ok () :=
  ⟨(save_never_throws ⟨false, true, none⟩ "doc" 10 7).2.1 rfl,
   by
     have h := (save_never_throws ⟨false, false, none⟩ "doc" 10 7).2.2 rfl rfl
     simpa [PositionStore.objSet] using h,
   (save_never_throws ⟨false, true, none⟩ "doc" 10 7).1⟩

/-! ### C5: reconciling a saved position against the current chunking -/

/-- The chunk-index reconciliation of `loadDocument` (MarkdownReader.tsx,
lines 1053–1057): `initialChunkIndex = 0`, overwritten by
`Math.min(position.chunkIndex, markdownChunks.length - 1)` when the saved
position exists and carries a `chunkIndex` (`position?.chunkIndex !== undefined`).
A total function: no branch can throw. -/
def computeInitialChunkIndex (position : Option ReadingPosition)
    (markdownChunks : List MarkdownChunk) : Int :=
  match position with
  | none => 0
  | some p =>
      match p.chunkIndex with
      | none => 0
      | some ci => min ci ((markdownChunks.length : Int) - 1)

/--
C5 (confirmed): for every current document content and every saved record whose
saved `chunkIndex` (when present) is non-negative — including an index
referencing a chunk no longer present in the current chunking — the computed
initial chunk index lies within `[0, totalSegments - 1]` of the current
chunking (which always has at least one chunk), degrading to the closest
available position; the computation is total, so it never throws.
-/
theorem reconcile_in_range (markdown : String) (position : Option ReadingPosition)
    (hci : ∀ p ci, position = some p → p.chunkIndex = some ci → 0 ≤ ci) :
    0 ≤ computeInitialChunkIndex position (splitMarkdownIntoChunks markdown) ∧
    computeInitialChunkIndex position (splitMarkdownIntoChunks markdown) <
      ((splitMarkdownIntoChunks markdown).length : Int) := by
  have hpos : 0 < (splitMarkdownIntoChunks markdown).length :=
    List.length_pos.mpr (splitMarkdownIntoChunks_ne_nil markdown)
  cases position with
  | none =>
      simp only [computeInitialChunkIndex]
      omega
  | some p =>
      cases hc : p.chunkIndex with
      | none =>
          simp only [computeInitialChunkIndex, hc]
          omega
      | some ci =>
          have h0 : 0 ≤ ci := hci p ci rfl hc
          simp only [computeInitialChunkIndex, hc]
          omega

/--
Witness for C5: a saved record pointing at chunk 3 of a document that now has a
single chunk (the empty document) reconciles to chunk 0.
-/
theorem reconcile_in_range_witness :
    0 ≤ computeInitialChunkIndex (some ⟨"d", 0, some 3, 0⟩)
        (splitMarkdownIntoChunks "") ∧
    computeInitialChunkIndex (some ⟨"d", 0, some 3, 0⟩)
        (splitMarkdownIntoChunks "") <
      ((splitMarkdownIntoChunks "").length : Int) :=
  reconcile_in_range "" (some ⟨"d", 0, some 3, 0⟩) (by
    intro p ci hp hc
    injection hp with hp2
    subst hp2
    injection hc with hc2
    omega)

/-! ## Table of Contents service: src/utils/tocService.ts -/

/-- One item of the table of contents, the `TocItem` interface of tocService.ts.
The `text` field carries the trimmed raw heading text; the further
`cleanHeadingText` normalization (stripping bold/italic/code/link/HTML markup)
is not modelled — it rewrites only this string field and no claim concerns it. -/
structure TocItem where
  level : Nat
  text : String
  id : String
  hasChildren : Bool
deriving Repr, DecidableEq

/-- Match decision, on one line, of the two heading regexes
`/^(#{1,6})\s+(.+)$/gm` (extractTableOfContents) and `/^#{1,6}\s+.+$/gm`
(getHeadingPositions), which differ only in capture groups and match at the
same positions: one to six leading `'#'` (seven or more fail — backtracking
still leaves a `'#'` right after the quantifier), then `\s+` then `.+` up to
the line end.  On a newline-free line this succeeds exactly when the first
character after the hashes is whitespace and at least two characters follow
the hashes (the last whitespace can serve as the `.+` by backtracking).
Matches are modelled per line; `\s+` swallowing the line's terminating newline
can only matter for a line of hashes followed by whitespace only, where both
regexes again behave identically. -/
def isTocHeadingLine (line : String) : Bool :=
  let hashes := (line.data.takeWhile (fun c => c = '#')).length
  let rest := line.data.dropWhile (fun c => c = '#')
  decide (1 ≤ hashes) && decide (hashes ≤ 6) &&
    (match rest with
     | c :: _ :: _ => c.isWhitespace
     | _ => false)

/-- The lines of the document paired with the character offset of each line's
first character — the `match.index` of a `^`-anchored match on that line. -/
def linesWithOffsets : List String → Nat → List (String × Nat)
  | [], _ => []
  | l :: rest, base => (l, base) :: linesWithOffsets rest (base + l.length + 1)

/-- All `gm` matches of the heading regexes: the heading lines paired with
their `match.index`, in document order. -/
def headingLineInfos (markdown : String) : List (String × Nat) :=
  (linesWithOffsets (splitLines markdown) 0).filter (fun p => isTocHeadingLine p.1)

/-- The `match.index` values of the heading matches in document order. -/
def headingMatches (markdown : String) : List Nat :=
  (headingLineInfos markdown).map Prod.snd

/-- The `hasChildren` marking pass of `extractTableOfContents` (lines 57–63):
an item whose immediate successor has a strictly greater level is marked. -/
def markChildren : List TocItem → List TocItem
  | [] => []
  | [a] => [a]
  | a :: b :: rest =>
      (if b.level > a.level then { a with hasChildren := true } else a) ::
        markChildren (b :: rest)

/-- `extractTableOfContents(markdown)` (lines 41–66): one `TocItem` per regex
match in document order, `level` the hash count, `id = "heading-" + index` with
`index` counting matches from 0, followed by the `hasChildren` pass. -/
def extractTableOfContents (markdown : String) : List TocItem :=
  markChildren ((headingLineInfos markdown).enum.map (fun p =>
    { level := (p.2.1.data.takeWhile (fun c => c = '#')).length
      text := (String.mk (p.2.1.data.dropWhile (fun c => c = '#'))).trim
      id := "heading-" ++ toString p.1
      hasChildren := false }))

/-- `getHeadingPositions(markdown)` (lines 168–180): the map from
`"heading-" + index` to `match.index`, modelled as an association list in
insertion order. -/
def getHeadingPositions (markdown : String) : List (String × Nat) :=
  (headingMatches markdown).enum.map (fun p => ("heading-" ++ toString p.1, p.2))

lemma markChildren_map_id (l : List TocItem) :
    (markChildren l).map TocItem.id = l.map TocItem.id := by
  induction l with
  | nil => rfl
  | cons a rest ih =>
      cases rest with
      | nil => rfl
      | cons b rest2 =>
          simp only [markChildren, List.map_cons]
          rw [ih]
          simp only [List.map_cons]
          congr 1
          split <;> rfl

lemma linesWithOffsets_line_start (md : List Char) :
    ∀ (lines : List String) (base : Nat),
    md.drop base = (joinLines lines).data →
    (base = 0 ∨ md[base - 1]? = some '\n') →
    ∀ lp ∈ linesWithOffsets lines base,
      lp.2 = 0 ∨ md[lp.2 - 1]? = some '\n' := by
  intro lines
  induction lines with
  | nil => intro base hdrop hbase lp hlp; simp [linesWithOffsets] at hlp
  | cons l rest ih =>
      intro base hdrop hbase lp hlp
      simp only [linesWithOffsets, List.mem_cons] at hlp
      rcases hlp with rfl | hlp
      · exact hbase
      · cases rest with
        | nil => simp [linesWithOffsets] at hlp
        | cons r rs =>
            have hjoin : (joinLines (l :: r :: rs)).data =
                l.data ++ '\n' :: (joinLines (r :: rs)).data := by
              rw [joinLines_cons l (r :: rs) (by simp)]
              simp [String.data_append]
            rw [hjoin] at hdrop
            have hlen0 : l.data.length = l.length := rfl
            have hdrop2 : md.drop (base + l.length + 1) = (joinLines (r :: rs)).data := by
              rw [show base + l.length + 1 = base + (l.length + 1) from by omega,
                ← List.drop_drop, hdrop]
              have h2 : l.data ++ '\n' :: (joinLines (r :: rs)).data =
                  (l.data ++ ['\n']) ++ (joinLines (r :: rs)).data := by simp
              rw [h2]
              have h3 : l.length + 1 = (l.data ++ ['\n']).length := by
                simp [hlen0]
              rw [h3, List.drop_left]
            have hnl : md[base + l.length]? = some '\n' := by
              have h4 : md[base + l.length]? = (md.drop base)[l.length]? := by
                rw [List.getElem?_drop]
              rw [h4, hdrop]
              rw [List.getElem?_append_right (le_of_eq hlen0)]
              rw [hlen0]
              simp
            exact ih (base + l.length + 1) hdrop2 (Or.inr (by simpa using hnl)) lp hlp

/--
C9 (confirmed): `extractTableOfContents` and `getHeadingPositions` agree on the
headings.  For every markdown string: the key list of the positions map equals
the id list of the TOC; those ids are exactly `"heading-0" … "heading-(n-1)"`
where `n` is the TOC length, so every TOC item's id resolves to a character
position; the position stored under `"heading-i"` is the `match.index` of the
i-th heading match in document order; and each such position is the character
offset of a line start (offset 0 or the character right after a newline) — the
offset of the corresponding heading line.
-/
theorem toc_and_positions_agree (markdown : String) :
    (getHeadingPositions markdown).map Prod.fst =
      (extractTableOfContents markdown).map TocItem.id ∧
    (extractTableOfContents markdown).map TocItem.id =
      (List.range (extractTableOfContents markdown).length).map
        (fun i => "heading-" ++ toString i) ∧
    (getHeadingPositions markdown).map Prod.snd = headingMatches markdown ∧
    (∀ p ∈ headingMatches markdown,
      p = 0 ∨ markdown.data[p - 1]? = some '\n') := by
  have hids : (extractTableOfContents markdown).map TocItem.id =
      (List.range (headingLineInfos markdown).length).map
        (fun i => "heading-" ++ toString i) := by
    rw [extractTableOfContents, markChildren_map_id, List.map_map]
    have : (TocItem.id ∘ fun p : Nat × (String × Nat) =>
        ({ level := (p.2.1.data.takeWhile (fun c => c = '#')).length
           text := (String.mk (p.2.1.data.dropWhile (fun c => c = '#'))).trim
           id := "heading-" ++ toString p.1
           hasChildren := false } : TocItem)) =
        (fun i => "heading-" ++ toString i) ∘ Prod.fst := rfl
    rw [this, ← List.map_map, List.enum_map_fst]
  have hlen : (extractTableOfContents markdown).length =
      (headingLineInfos markdown).length := by
    have := congrArg List.length hids
    simpa using this
  refine ⟨?_, ?_, ?_, ?_⟩
  · rw [hids, getHeadingPositions]
    rw [List.map_map]
    have : (Prod.fst ∘ fun p : Nat × Nat => ("heading-" ++ toString p.1, p.2)) =
        (fun i => "heading-" ++ toString i) ∘ Prod.fst := rfl
    rw [this, ← List.map_map, List.enum_map_fst]
    simp [headingMatches]
  · rw [hids, hlen]
  · rw [getHeadingPositions, List.map_map]
    have : (Prod.snd ∘ fun p : Nat × Nat => ("heading-" ++ toString p.1, p.2)) =
        Prod.snd := rfl
    rw [this, List.enum_map_snd]
  · intro p hp
    simp only [headingMatches, List.mem_map] at hp
    obtain ⟨lp, hlp, rfl⟩ := hp
    have hmem : lp ∈ linesWithOffsets (splitLines markdown) 0 :=
      List.mem_of_mem_filter hlp
    refine linesWithOffsets_line_start markdown.data (splitLines markdown) 0 ?_
      (Or.inl rfl) lp hmem
    rw [List.drop_zero, joinLines_splitLines]

/--
Witness for C9 (grounding clause): on the document `"# A\nx\n## B"`, the heading
matches are at offsets 0 and 6, and offset 6 follows a newline.
-/
theorem toc_and_positions_agree_witness :
    headingMatches "# A\nx\n## B" = [0, 6] ∧
    ((6 : Nat) = 0 ∨ ("# A\nx\n## B".data[6 - 1]? = some '\n')) :=
  ⟨by decide,
   (toc_and_positions_agree "# A\nx\n## B").2.2.2 6 (by decide)⟩
